import Mathlib

/-!
Verification of the sliding-window rate limiter in
tg_bot/modules/helper_funcs/decorators.py.

The limiter lives inside the decorator rate_limit(messages_per_window,
window_seconds): the inner wrapper(update, context) reads the module-level
dict message_history keyed by update.effective_user.id, prunes the user's
recorded timestamps with the list comprehension
  [t for t in message_history[user_id] if current_time - t <= window_seconds],
denies (bare return, value None) when the pruned length is at least
messages_per_window, and otherwise appends current_time and invokes the
wrapped callback func(update, context), again returning None. The wrapper is
additionally memoized with functools.lru_cache(maxsize=1024) keyed on the
(update, context) argument pair.

Timestamps are modelled as integers; the shared message_history dict is
modelled as a total map from user ids to timestamp lists whose default value
is the empty list, which coincides with the source's
  if user_id not in message_history: message_history[user_id] = []
initialisation.
-/

namespace Decorators

/-- Configuration captured by the decorator arguments of rate_limit:
the maximum number of messages allowed within the time window, and the
duration of the time window in seconds. -/
structure RateLimitConfig where
  messages_per_window : Int
  window_seconds : Int
deriving DecidableEq

/-- Keep-condition of the prune step: the source's list comprehension keeps a
recorded timestamp t exactly when current_time - t <= window_seconds. -/
def keepB (window_seconds current_time t : Int) : Bool :=
  decide (current_time - t ≤ window_seconds)

/-- Prune step of the wrapper: message_history[user_id] is replaced by
the timestamps t satisfying current_time - t <= window_seconds. -/
def pruneHistory (cfg : RateLimitConfig) (hist : List Int) (current_time : Int) :
    List Int :=
  hist.filter (keepB cfg.window_seconds current_time)

/-- Observable outcome of one execution of the wrapper body for one user:
the user's history entry after the call, whether the wrapped callback func
was invoked, and the Python return value of the wrapper itself (an Option
Bool so that the boolean protocol the specification describes is statable;
the source returns None, i.e. none, on every path). -/
structure WrapperResult where
  newHistory : List Int
  callbackInvoked : Bool
  returnValue : Option Bool
deriving DecidableEq

/-- Body of the wrapper produced by rate_limit, restricted to the single
message_history entry it reads and writes. Denial path: bare return after
the length check, so callbackInvoked is false and returnValue is none, with
the entry left pruned. Admission path: current_time is appended and
func(update, context) is invoked; the wrapper then falls off the end, so its
own return value is again none. -/
def wrapperCall (cfg : RateLimitConfig) (hist : List Int) (current_time : Int) :
    WrapperResult :=
  if cfg.messages_per_window ≤ ((pruneHistory cfg hist current_time).length : Int) then
    ⟨pruneHistory cfg hist current_time, false, none⟩
  else
    ⟨pruneHistory cfg hist current_time ++ [current_time], true, none⟩

/-- One wrapper execution acting on the whole module-level message_history
map: only the entry of user_id is read and rewritten. -/
def wrapperStep (cfg : RateLimitConfig) (message_history : Nat → List Int)
    (user_id : Nat) (current_time : Int) : (Nat → List Int) × WrapperResult :=
  let r := wrapperCall cfg (message_history user_id) current_time
  (fun u => if u = user_id then r.newHistory else message_history u, r)

/-- Trace of wrapper body executions for a single user: from a starting
history and a list of call times, the final history together with the list
of admitted timestamps (those calls that appended and invoked func). -/
def runTrace (cfg : RateLimitConfig) : List Int → List Int → List Int × List Int
  | hist, [] => (hist, [])
  | hist, now :: rest =>
    let r := wrapperCall cfg hist now
    let p := runTrace cfg r.newHistory rest
    (p.1, (if r.callbackInvoked then [now] else []) ++ p.2)

/-- Trace of wrapper body executions over the shared message_history map:
each element of the call list is a (user_id, current_time) pair; the result
is the final map together with the admitted (user_id, timestamp) pairs. -/
def runSystem (cfg : RateLimitConfig) :
    (Nat → List Int) → List (Nat × Int) → (Nat → List Int) × List (Nat × Int)
  | σ, [] => (σ, [])
  | σ, (uid, now) :: rest =>
    let r := wrapperStep cfg σ uid now
    let p := runSystem cfg r.1 rest
    (p.1, (if r.2.callbackInvoked then [(uid, now)] else []) ++ p.2)

/-- Number of timestamps of l lying in the trailing window (t - w, t]. -/
def countInWindow (w t : Int) (l : List Int) : Nat :=
  l.countP (fun u => decide (t - w < u ∧ u ≤ t))

/-- Error the specification assigns to construction with non-positive
arguments. -/
inductive ConfigError where
  | InvalidConfiguration
deriving DecidableEq

/-- Construction: rate_limit(messages_per_window, window_seconds) in the
source builds and returns the decorator unconditionally; its body contains
no argument validation and no raise statement, so viewed as a fallible
operation it always succeeds with the given configuration. -/
def rate_limit (messages_per_window window_seconds : Int) :
    Except ConfigError RateLimitConfig :=
  Except.ok ⟨messages_per_window, window_seconds⟩

/-! Helper lemmas about the prune step and the wrapper. -/

lemma wrapperCall_denied (cfg : RateLimitConfig) (hist : List Int) (now : Int)
    (h : cfg.messages_per_window ≤ ((pruneHistory cfg hist now).length : Int)) :
    wrapperCall cfg hist now = ⟨pruneHistory cfg hist now, false, none⟩ := by
  unfold wrapperCall
  rw [if_pos h]

lemma wrapperCall_admitted (cfg : RateLimitConfig) (hist : List Int) (now : Int)
    (h : ¬ cfg.messages_per_window ≤ ((pruneHistory cfg hist now).length : Int)) :
    wrapperCall cfg hist now = ⟨pruneHistory cfg hist now ++ [now], true, none⟩ := by
  unfold wrapperCall
  rw [if_neg h]

lemma wrapperStep_snd (cfg : RateLimitConfig) (σ : Nat → List Int)
    (user_id : Nat) (now : Int) :
    (wrapperStep cfg σ user_id now).2 = wrapperCall cfg (σ user_id) now := rfl

lemma wrapperStep_fst_self (cfg : RateLimitConfig) (σ : Nat → List Int)
    (user_id : Nat) (now : Int) :
    (wrapperStep cfg σ user_id now).1 user_id
      = (wrapperCall cfg (σ user_id) now).newHistory := by
  simp [wrapperStep]

lemma wrapperStep_fst_ne (cfg : RateLimitConfig) (σ : Nat → List Int)
    (user_id b : Nat) (now : Int) (hb : b ≠ user_id) :
    (wrapperStep cfg σ user_id now).1 b = σ b := by
  simp [wrapperStep, hb]

lemma keepB_self (w now : Int) (hw : 0 ≤ w) : keepB w now now = true := by
  simp [keepB]
  omega

lemma prune_prune (cfg : RateLimitConfig) (l : List Int) (m now : Int)
    (hm : m ≤ now) :
    pruneHistory cfg (pruneHistory cfg l m) now = pruneHistory cfg l now := by
  unfold pruneHistory
  rw [List.filter_filter]
  refine List.filter_congr ?_
  intro x _
  by_cases h : now - x ≤ cfg.window_seconds
  · have hm' : m - x ≤ cfg.window_seconds := by omega
    simp [keepB, h, hm']
  · simp [keepB, h]

lemma prune_idem (cfg : RateLimitConfig) (l : List Int) (now : Int) :
    pruneHistory cfg (pruneHistory cfg l now) now = pruneHistory cfg l now :=
  prune_prune cfg l now now le_rfl

/-- C2 counterexample: with window_seconds = 60, capacity 1 and a recorded
timestamp 0 = 60 - 60 lying exactly on the lower boundary, the prune at
current_time 60 keeps the timestamp (the source's keep-condition
current_time - t <= window_seconds is inclusive), and the timestamp counts
toward the capacity check, so the call at time 60 is denied. -/
theorem prune_boundary_inclusive_cex :
    (0 : Int) = 60 - 60 ∧
    pruneHistory ⟨1, 60⟩ [0] 60 = [0] ∧
    (wrapperCall ⟨1, 60⟩ [0] 60).callbackInvoked = false := by
  decide

/-- C2 amended: the lower bound of the window is inclusive, not exclusive:
a recorded timestamp exactly equal to current_time - window_seconds
survives the prune step (and therefore counts toward the capacity check). -/
theorem prune_boundary_kept (cfg : RateLimitConfig) (hist : List Int)
    (now : Int) (h : (now - cfg.window_seconds) ∈ hist) :
    (now - cfg.window_seconds) ∈ pruneHistory cfg hist now := by
  unfold pruneHistory
  rw [List.mem_filter]
  refine ⟨h, ?_⟩
  simp [keepB]

theorem prune_boundary_kept_witness :
    ((60 : Int) - 60) ∈ ([0, 30] : List Int) ∧
    ((60 : Int) - 60) ∈ pruneHistory ⟨1, 60⟩ [0, 30] 60 :=
  ⟨by decide, prune_boundary_kept ⟨1, 60⟩ [0, 30] 60 (by decide)⟩

/-- C3 counterexample: construction with non-positive arguments raises no
InvalidConfiguration error: rate_limit(0, 0) (non-positive capacity)
succeeds and yields a working limiter that denies its calls, and
rate_limit(3, -5) (non-positive window only) also succeeds and yields a
working limiter that still admits a fresh user's call. -/
theorem rate_limit_no_validation_cex :
    (rate_limit 0 0 = Except.ok ⟨0, 0⟩ ∧
      (wrapperCall ⟨0, 0⟩ [] 1).callbackInvoked = false) ∧
    (rate_limit 3 (-5) = Except.ok ⟨3, -5⟩ ∧
      (wrapperCall ⟨3, -5⟩ [] 1).callbackInvoked = true) :=
  ⟨⟨rfl, by decide⟩, ⟨rfl, by decide⟩⟩

/-- C3 amended: rate_limit performs no argument validation: with a
non-positive messages_per_window or a non-positive window_seconds,
construction still succeeds with the given configuration instead of
failing, and the wrapper it produces operates as a limiter: when
messages_per_window is non-positive it denies every call, and when only
window_seconds is non-positive (messages_per_window positive) it still
admits a call for a user with empty history. -/
theorem rate_limit_accepts_nonpositive (cap w : Int) (h : cap ≤ 0 ∨ w ≤ 0) :
    rate_limit cap w = Except.ok ⟨cap, w⟩ ∧
    (cap ≤ 0 → ∀ (hist : List Int) (now : Int),
      (wrapperCall ⟨cap, w⟩ hist now).callbackInvoked = false) ∧
    (0 < cap → ∀ now : Int,
      (wrapperCall ⟨cap, w⟩ [] now).callbackInvoked = true) := by
  refine ⟨rfl, ?_, ?_⟩
  · intro hcap hist now
    have hle : cap ≤ ((pruneHistory ⟨cap, w⟩ hist now).length : Int) := by
      have := Int.ofNat_nonneg (pruneHistory ⟨cap, w⟩ hist now).length
      omega
    rw [wrapperCall_denied _ _ _ hle]
  · intro hcap now
    have hpr : pruneHistory ⟨cap, w⟩ [] now = [] := rfl
    have hlt : ¬ cap ≤ ((pruneHistory ⟨cap, w⟩ [] now).length : Int) := by
      rw [hpr]
      intro hle
      simp at hle
      omega
    rw [wrapperCall_admitted _ _ _ hlt]

theorem rate_limit_accepts_nonpositive_witness :
    ((3 : Int) ≤ 0 ∨ (-5 : Int) ≤ 0) ∧
    (rate_limit 3 (-5) = Except.ok ⟨3, -5⟩ ∧
      ((3 : Int) ≤ 0 → ∀ (hist : List Int) (now : Int),
        (wrapperCall ⟨3, -5⟩ hist now).callbackInvoked = false) ∧
      ((0 : Int) < 3 → ∀ now : Int,
        (wrapperCall ⟨3, -5⟩ [] now).callbackInvoked = true)) :=
  ⟨by decide, rate_limit_accepts_nonpositive 3 (-5) (by decide)⟩

/-- C5: a denied call leaves the identity's history exactly pruned (no
timestamp is recorded), and repeating the call on the resulting state at the
same instant is denied again. -/
theorem denied_call_idempotent (cfg : RateLimitConfig) (hist : List Int)
    (now : Int) (hdeny : (wrapperCall cfg hist now).callbackInvoked = false) :
    (wrapperCall cfg hist now).newHistory = pruneHistory cfg hist now ∧
    (wrapperCall cfg (wrapperCall cfg hist now).newHistory now).callbackInvoked
      = false := by
  by_cases h : cfg.messages_per_window ≤ ((pruneHistory cfg hist now).length : Int)
  · rw [wrapperCall_denied _ _ _ h]
    refine ⟨rfl, ?_⟩
    have h2 : cfg.messages_per_window
        ≤ ((pruneHistory cfg (pruneHistory cfg hist now) now).length : Int) := by
      rw [prune_idem]
      exact h
    rw [wrapperCall_denied _ _ _ h2]
  · rw [wrapperCall_admitted _ _ _ h] at hdeny
    simp at hdeny

theorem denied_call_idempotent_witness :
    (wrapperCall ⟨1, 60⟩ [0] 5).callbackInvoked = false ∧
    ((wrapperCall ⟨1, 60⟩ [0] 5).newHistory = pruneHistory ⟨1, 60⟩ [0] 5 ∧
      (wrapperCall ⟨1, 60⟩
        (wrapperCall ⟨1, 60⟩ [0] 5).newHistory 5).callbackInvoked = false) :=
  ⟨by decide, denied_call_idempotent ⟨1, 60⟩ [0] 5 (by decide)⟩

/-- C7: a wrapper execution for user_id leaves every other user's
message_history entry untouched, and its outcome (decision, new entry,
return value) depends only on user_id's own entry: two maps agreeing at
user_id produce identical outcomes. -/
theorem identity_independence (cfg : RateLimitConfig)
    (h1 h2 : Nat → List Int) (user_id b : Nat) (now : Int)
    (hb : b ≠ user_id) (huid : h1 user_id = h2 user_id) :
    (wrapperStep cfg h1 user_id now).1 b = h1 b ∧
    (wrapperStep cfg h1 user_id now).2 = (wrapperStep cfg h2 user_id now).2 := by
  refine ⟨wrapperStep_fst_ne cfg h1 user_id b now hb, ?_⟩
  rw [wrapperStep_snd, wrapperStep_snd, huid]

theorem identity_independence_witness :
    (2 : Nat) ≠ 1 ∧
    (fun u : Nat => if u = 1 then [(0 : Int)] else [5]) 1
      = (fun u : Nat => if u = 1 then [(0 : Int)] else [7]) 1 ∧
    ((wrapperStep ⟨3, 60⟩ (fun u => if u = 1 then [(0 : Int)] else [5]) 1 2).1 2
        = (fun u : Nat => if u = 1 then [(0 : Int)] else [5]) 2 ∧
      (wrapperStep ⟨3, 60⟩ (fun u => if u = 1 then [(0 : Int)] else [5]) 1 2).2
        = (wrapperStep ⟨3, 60⟩ (fun u => if u = 1 then [(0 : Int)] else [7]) 1 2).2) :=
  ⟨by decide, by decide,
    identity_independence ⟨3, 60⟩ _ _ 1 2 2 (by decide) (by decide)⟩

/-- C8: all decorated functions share the one module-level message_history
map keyed only by user id: an admission recorded for a user through a
wrapper configured with c1 consumes that user's quota as seen by a wrapper
configured with any other c2 (here c2 with capacity 1: the user, fresh
before the first call, is admitted under c1 and then denied under c2 inside
c2's window, even though no call ever went through c2 before). -/
theorem shared_history_cross_function (c1 c2 : RateLimitConfig)
    (σ : Nat → List Int) (user_id : Nat) (t t' : Int)
    (hfresh : σ user_id = []) (hc1 : 0 < c1.messages_per_window)
    (hc2 : c2.messages_per_window = 1) (hwin : t' - t ≤ c2.window_seconds) :
    (wrapperStep c1 σ user_id t).2.callbackInvoked = true ∧
    (wrapperStep c2 (wrapperStep c1 σ user_id t).1 user_id t').2.callbackInvoked
      = false := by
  have hcall1 : wrapperCall c1 (σ user_id) t = ⟨[t], true, none⟩ := by
    rw [hfresh]
    have h : ¬ c1.messages_per_window
        ≤ ((pruneHistory c1 ([] : List Int) t).length : Int) := by
      have hpr : pruneHistory c1 ([] : List Int) t = [] := rfl
      rw [hpr]
      intro hle
      simp at hle
      omega
    rw [wrapperCall_admitted _ _ _ h]
    rfl
  have hstep1 : (wrapperStep c1 σ user_id t).1 user_id = [t] := by
    rw [wrapperStep_fst_self, hcall1]
  constructor
  · rw [wrapperStep_snd, hcall1]
  · rw [wrapperStep_snd, hstep1]
    have hprune : pruneHistory c2 [t] t' = [t] := by
      unfold pruneHistory
      rw [List.filter_eq_self]
      intro a ha
      rw [List.mem_singleton] at ha
      subst ha
      simp [keepB]
      omega
    have h2 : c2.messages_per_window
        ≤ ((pruneHistory c2 [t] t').length : Int) := by
      rw [hprune, hc2]
      simp
    rw [wrapperCall_denied _ _ _ h2]

theorem shared_history_cross_function_witness :
    ((fun _ : Nat => ([] : List Int)) 7 = [] ∧ (0 : Int) < 40 ∧
      (1 : Int) = 1 ∧ (50 : Int) - 0 ≤ 100) ∧
    ((wrapperStep ⟨40, 60⟩ (fun _ => []) 7 0).2.callbackInvoked = true ∧
      (wrapperStep ⟨1, 100⟩
        (wrapperStep ⟨40, 60⟩ (fun _ => []) 7 0).1 7 50).2.callbackInvoked
        = false) :=
  ⟨⟨rfl, by decide, by decide, by decide⟩,
    shared_history_cross_function ⟨40, 60⟩ ⟨1, 100⟩ (fun _ => []) 7 0 50
      rfl (by decide) (by decide) (by decide)⟩

lemma runTrace_nil (cfg : RateLimitConfig) (hist : List Int) :
    runTrace cfg hist [] = (hist, []) := rfl

lemma runTrace_cons (cfg : RateLimitConfig) (hist : List Int) (now : Int)
    (rest : List Int) :
    runTrace cfg hist (now :: rest)
      = ((runTrace cfg (wrapperCall cfg hist now).newHistory rest).1,
          (if (wrapperCall cfg hist now).callbackInvoked then [now] else [])
            ++ (runTrace cfg (wrapperCall cfg hist now).newHistory rest).2) := rfl

lemma runTrace_cons_denied (cfg : RateLimitConfig) (hist : List Int)
    (now : Int) (rest : List Int)
    (h : (wrapperCall cfg hist now).callbackInvoked = false) :
    runTrace cfg hist (now :: rest)
      = runTrace cfg (wrapperCall cfg hist now).newHistory rest := by
  rw [runTrace_cons, h]
  simp

lemma runTrace_cons_admitted (cfg : RateLimitConfig) (hist : List Int)
    (now : Int) (rest : List Int)
    (h : (wrapperCall cfg hist now).callbackInvoked = true) :
    runTrace cfg hist (now :: rest)
      = ((runTrace cfg (wrapperCall cfg hist now).newHistory rest).1,
          now :: (runTrace cfg (wrapperCall cfg hist now).newHistory rest).2) := by
  rw [runTrace_cons, h]
  simp

/-- C6 counterexample: capacity 3, window 60; calls at times 0, 1, 2 are
admitted and the call at time 3 is denied; the call at time 60, although
60 ≥ 0 + 60 (earliest admitted timestamp plus window), is still denied,
because the source's inclusive keep-condition retains the timestamp 0 at
current_time 60, so the admitted timestamps are exactly 0, 1, 2. -/
theorem readmission_at_boundary_cex :
    (60 : Int) ≥ 0 + 60 ∧
    (runTrace ⟨3, 60⟩ [] [0, 1, 2, 3, 60]).2 = [0, 1, 2] := by
  decide

/-- C6 amended: re-admission requires the window to elapse strictly: for a
history holding at most capacity timestamps (in particular one denied while
at capacity), a call at any time t' with
t' > earliest recorded timestamp + window_seconds is admitted, the earliest
timestamp having aged out of the inclusive window. -/
theorem readmission_after_window (cfg : RateLimitConfig) (hist : List Int)
    (e t' : Int) (he : e ∈ hist) (hmin : ∀ u ∈ hist, e ≤ u)
    (hlen : (hist.length : Int) ≤ cfg.messages_per_window)
    (ht : e + cfg.window_seconds < t') :
    (wrapperCall cfg hist t').callbackInvoked = true := by
  have hlt : (pruneHistory cfg hist t').length < hist.length := by
    unfold pruneHistory
    refine List.length_filter_lt_length_iff_exists.mpr ⟨e, he, ?_⟩
    simp [keepB]
    omega
  have h : ¬ cfg.messages_per_window ≤ ((pruneHistory cfg hist t').length : Int) := by
    intro hle
    omega
  rw [wrapperCall_admitted _ _ _ h]

theorem readmission_after_window_witness :
    ((0 : Int) ∈ ([0, 1, 2] : List Int) ∧
      (∀ u ∈ ([0, 1, 2] : List Int), (0 : Int) ≤ u) ∧
      ((([0, 1, 2] : List Int).length : Int) ≤ 3) ∧
      (0 : Int) + 60 < 61) ∧
    (wrapperCall ⟨3, 60⟩ [0, 1, 2] 61).callbackInvoked = true :=
  ⟨⟨by decide, by decide, by decide, by decide⟩,
    readmission_after_window ⟨3, 60⟩ [0, 1, 2] 0 61
      (by decide) (by decide) (by decide) (by decide)⟩

/-- C4 counterexample: an admitted call (capacity 3, empty history) invokes
the callback but the wrapper's return value is None, not the boolean true
the claim asserts; denial likewise returns None rather than false. -/
theorem wrapper_return_none_cex :
    (wrapperCall ⟨3, 60⟩ [] 0).callbackInvoked = true ∧
    ¬ (wrapperCall ⟨3, 60⟩ [] 0).returnValue = some true ∧
    (wrapperCall ⟨1, 60⟩ [0] 1).callbackInvoked = false ∧
    ¬ (wrapperCall ⟨1, 60⟩ [0] 1).returnValue = some false := by
  decide

lemma mem_append_comm_cons {a : Int} {A rest : List Int} {c : Int}
    (h : a ∈ (A ++ [c]) ++ rest) : a ∈ A ++ c :: rest := by
  simp only [List.mem_append, List.mem_cons, List.mem_singleton] at *
  tauto

/-- Runs in which every involved timestamp lies within one window of every
other: the prune step then never removes anything, the first
capacity - |A| calls are admitted and everything afterwards is denied. -/
lemma runTrace_allInWindow (cap w : Int) :
    ∀ (calls A : List Int),
      (∀ a ∈ A ++ calls, ∀ b ∈ A ++ calls, b - a ≤ w) →
      (A.length : Int) ≤ cap →
      (runTrace ⟨cap, w⟩ A calls).1 = A ++ (runTrace ⟨cap, w⟩ A calls).2 ∧
      ((runTrace ⟨cap, w⟩ A calls).2.length : Int)
        = min (calls.length : Int) (cap - A.length) ∧
      ∀ x ∈ (runTrace ⟨cap, w⟩ A calls).2, x ∈ calls := by
  intro calls
  induction calls with
  | nil =>
    intro A hwin hA
    rw [runTrace_nil]
    refine ⟨by simp, ?_, by simp⟩
    simp
    omega
  | cons c rest ih =>
    intro A hwin hA
    have hkeep : ∀ a ∈ A, keepB w c a = true := by
      intro a ha
      have := hwin a (by simp [ha]) c (by simp)
      simp [keepB]
      omega
    have hpr : pruneHistory ⟨cap, w⟩ A c = A :=
      List.filter_eq_self.mpr hkeep
    by_cases hd : cap ≤ (A.length : Int)
    · have hcall : wrapperCall ⟨cap, w⟩ A c = ⟨A, false, none⟩ := by
        have h : cap ≤ ((pruneHistory ⟨cap, w⟩ A c).length : Int) := by
          rw [hpr]
          exact hd
        rw [wrapperCall_denied _ _ _ h, hpr]
      have hinv : (wrapperCall ⟨cap, w⟩ A c).callbackInvoked = false := by
        rw [hcall]
      have hnh : (wrapperCall ⟨cap, w⟩ A c).newHistory = A := by
        rw [hcall]
      rw [runTrace_cons_denied _ _ _ _ hinv, hnh]
      have hwin' : ∀ a ∈ A ++ rest, ∀ b ∈ A ++ rest, b - a ≤ w := by
        intro a ha b hb
        refine hwin a ?_ b ?_ <;>
          (simp only [List.mem_append, List.mem_cons] at *; tauto)
      obtain ⟨ih1, ih2, ih3⟩ := ih A hwin' hA
      refine ⟨ih1, ?_, ?_⟩
      · rw [ih2]
        simp only [List.length_cons]
        push_cast
        omega
      · intro x hx
        exact List.mem_cons_of_mem c (ih3 x hx)
    · have hcall : wrapperCall ⟨cap, w⟩ A c = ⟨A ++ [c], true, none⟩ := by
        have h : ¬ cap ≤ ((pruneHistory ⟨cap, w⟩ A c).length : Int) := by
          rw [hpr]
          exact hd
        rw [wrapperCall_admitted _ _ _ h, hpr]
      have hinv : (wrapperCall ⟨cap, w⟩ A c).callbackInvoked = true := by
        rw [hcall]
      have hnh : (wrapperCall ⟨cap, w⟩ A c).newHistory = A ++ [c] := by
        rw [hcall]
      rw [runTrace_cons_admitted _ _ _ _ hinv, hnh]
      have hwin' : ∀ a ∈ (A ++ [c]) ++ rest, ∀ b ∈ (A ++ [c]) ++ rest, b - a ≤ w := by
        intro a ha b hb
        exact hwin a (mem_append_comm_cons ha) b (mem_append_comm_cons hb)
      have hA' : (((A ++ [c]).length : Nat) : Int) ≤ cap := by
        rw [List.length_append, List.length_singleton]
        push_cast
        omega
      obtain ⟨ih1, ih2, ih3⟩ := ih (A ++ [c]) hwin' hA'
      refine ⟨?_, ?_, ?_⟩
      · rw [ih1]
        simp
      · simp only [List.length_cons]
        rw [List.length_append, List.length_singleton] at ih2
        push_cast at ih2 ⊢
        omega
      · intro x hx
        rcases List.mem_cons.mp hx with hx1 | hx1
        · rw [hx1]
          exact List.mem_cons_self c rest
        · exact List.mem_cons_of_mem c (ih3 x hx1)

/-- C4 amended: the wrapper returns None on every path (there is no boolean
return value); admission is observable through the side effects: with
capacity C = messages_per_window ≥ 0, C calls within one window starting
from an empty history are all admitted (callback invoked, timestamp
appended), and a (C+1)-th call still within the same window invokes no
callback and also returns None, not false. -/
theorem wrapper_admission_decision (cap w : Int) (calls : List Int)
    (c1 : Int) (hcap : 0 ≤ cap)
    (hwin : ∀ a ∈ calls ++ [c1], ∀ b ∈ calls ++ [c1], b - a ≤ w)
    (hlen : (calls.length : Int) = cap) :
    ((runTrace ⟨cap, w⟩ [] calls).2.length : Int) = cap ∧
    (wrapperCall ⟨cap, w⟩ (runTrace ⟨cap, w⟩ [] calls).1 c1).callbackInvoked
      = false ∧
    (wrapperCall ⟨cap, w⟩ (runTrace ⟨cap, w⟩ [] calls).1 c1).returnValue
      = none := by
  have hwin0 : ∀ a ∈ ([] : List Int) ++ calls, ∀ b ∈ ([] : List Int) ++ calls,
      b - a ≤ w := by
    intro a ha b hb
    simp only [List.nil_append] at ha hb
    exact hwin a (by simp [ha]) b (by simp [hb])
  obtain ⟨h1, h2, h3⟩ := runTrace_allInWindow cap w calls [] hwin0
    (by simpa using hcap)
  have hadm : ((runTrace ⟨cap, w⟩ [] calls).2.length : Int) = cap := by
    rw [h2]
    simp only [List.length_nil, Nat.cast_zero, Int.sub_zero]
    omega
  refine ⟨hadm, ?_⟩
  have hfin : (runTrace ⟨cap, w⟩ [] calls).1 = (runTrace ⟨cap, w⟩ [] calls).2 := by
    rw [h1]
    simp
  have hkeep : ∀ a ∈ (runTrace ⟨cap, w⟩ [] calls).1, keepB w c1 a = true := by
    intro a ha
    rw [hfin] at ha
    have hac : a ∈ calls := h3 a ha
    have := hwin a (by simp [hac]) c1 (by simp)
    simp [keepB]
    omega
  have hpr : pruneHistory ⟨cap, w⟩ (runTrace ⟨cap, w⟩ [] calls).1 c1
      = (runTrace ⟨cap, w⟩ [] calls).1 :=
    List.filter_eq_self.mpr hkeep
  have hdeny : cap ≤ ((pruneHistory ⟨cap, w⟩ (runTrace ⟨cap, w⟩ [] calls).1 c1).length : Int) := by
    rw [hpr, hfin, hadm]
  rw [wrapperCall_denied _ _ _ hdeny]
  exact ⟨rfl, rfl⟩

theorem wrapper_admission_decision_witness :
    ((0 : Int) ≤ 2 ∧
      (∀ a ∈ ([0, 1] : List Int) ++ [2], ∀ b ∈ ([0, 1] : List Int) ++ [2],
        b - a ≤ (60 : Int)) ∧
      ((([0, 1] : List Int).length : Int) = 2)) ∧
    (((runTrace ⟨2, 60⟩ [] [0, 1]).2.length : Int) = 2 ∧
      (wrapperCall ⟨2, 60⟩ (runTrace ⟨2, 60⟩ [] [0, 1]).1 2).callbackInvoked
        = false ∧
      (wrapperCall ⟨2, 60⟩ (runTrace ⟨2, 60⟩ [] [0, 1]).1 2).returnValue
        = none) :=
  ⟨⟨by decide, by decide, by decide⟩,
    wrapper_admission_decision 2 60 [0, 1] 2 (by decide) (by decide) (by decide)⟩

/-! The sliding-window capacity invariant (C1). -/

lemma prune_append_self (cfg : RateLimitConfig) (A : List Int) (c : Int)
    (hw : 0 ≤ cfg.window_seconds) :
    pruneHistory cfg (A ++ [c]) c = pruneHistory cfg A c ++ [c] := by
  unfold pruneHistory
  rw [List.filter_append]
  congr 1
  simp [keepB_self cfg.window_seconds c hw]

/-- Monotone count bound threaded through a whole trace: starting from the
prune of an already-admitted list A at a time m separating A from the calls,
the count of admitted timestamps in any trailing window (t - w, t] stays at
most the capacity. -/
lemma runTrace_window_bound (cap w : Int) (hw : 0 ≤ w) :
    ∀ (calls : List Int), calls.Pairwise (· ≤ ·) →
    ∀ (A : List Int) (m : Int), (∀ a ∈ A, a ≤ m) → (∀ c ∈ calls, m ≤ c) →
    (∀ t' : Int, (countInWindow w t' A : Int) ≤ cap) →
    ∀ t : Int,
      ((countInWindow w t
        (A ++ (runTrace ⟨cap, w⟩ (pruneHistory ⟨cap, w⟩ A m) calls).2)) : Int)
        ≤ cap := by
  intro calls
  induction calls with
  | nil =>
    intro _ A m _ _ hcnt t
    rw [runTrace_nil]
    simpa using hcnt t
  | cons c rest ih =>
    intro hsorted A m hAm hmc hcnt t
    have hmlec : m ≤ c := hmc c (List.mem_cons_self c rest)
    have hrest_sorted : rest.Pairwise (· ≤ ·) := (List.pairwise_cons.mp hsorted).2
    have hc_le_rest : ∀ x ∈ rest, c ≤ x := (List.pairwise_cons.mp hsorted).1
    have hpp : pruneHistory ⟨cap, w⟩ (pruneHistory ⟨cap, w⟩ A m) c
        = pruneHistory ⟨cap, w⟩ A c := prune_prune _ A m c hmlec
    by_cases hd : cap ≤ ((pruneHistory ⟨cap, w⟩ A c).length : Int)
    · have h' : cap
          ≤ ((pruneHistory ⟨cap, w⟩ (pruneHistory ⟨cap, w⟩ A m) c).length : Int) := by
        rw [hpp]
        exact hd
      have hcall : wrapperCall ⟨cap, w⟩ (pruneHistory ⟨cap, w⟩ A m) c
          = ⟨pruneHistory ⟨cap, w⟩ A c, false, none⟩ := by
        rw [wrapperCall_denied _ _ _ h', hpp]
      have hinv : (wrapperCall ⟨cap, w⟩ (pruneHistory ⟨cap, w⟩ A m) c).callbackInvoked
          = false := by
        rw [hcall]
      have hnh : (wrapperCall ⟨cap, w⟩ (pruneHistory ⟨cap, w⟩ A m) c).newHistory
          = pruneHistory ⟨cap, w⟩ A c := by
        rw [hcall]
      rw [runTrace_cons_denied _ _ _ _ hinv, hnh]
      exact ih hrest_sorted A c (fun a ha => le_trans (hAm a ha) hmlec)
        hc_le_rest hcnt t
    · have h' : ¬ cap
          ≤ ((pruneHistory ⟨cap, w⟩ (pruneHistory ⟨cap, w⟩ A m) c).length : Int) := by
        rw [hpp]
        exact hd
      have hcall : wrapperCall ⟨cap, w⟩ (pruneHistory ⟨cap, w⟩ A m) c
          = ⟨pruneHistory ⟨cap, w⟩ A c ++ [c], true, none⟩ := by
        rw [wrapperCall_admitted _ _ _ h', hpp]
      have hinv : (wrapperCall ⟨cap, w⟩ (pruneHistory ⟨cap, w⟩ A m) c).callbackInvoked
          = true := by
        rw [hcall]
      have hnh : (wrapperCall ⟨cap, w⟩ (pruneHistory ⟨cap, w⟩ A m) c).newHistory
          = pruneHistory ⟨cap, w⟩ (A ++ [c]) c := by
        rw [hcall, prune_append_self _ _ _ hw]
      rw [runTrace_cons_admitted _ _ _ _ hinv, hnh]
      have hcnt' : ∀ t' : Int, (countInWindow w t' (A ++ [c]) : Int) ≤ cap := by
        intro t'
        unfold countInWindow
        rw [List.countP_append]
        by_cases hin : (t' - w < c ∧ c ≤ t')
        · have hone : List.countP (fun u => decide (t' - w < u ∧ u ≤ t')) [c] = 1 := by
            simp [hin]
          rw [hone]
          have hmono : List.countP (fun u => decide (t' - w < u ∧ u ≤ t')) A
              ≤ List.countP (keepB w c) A := by
            refine List.countP_mono_left ?_
            intro x _ hx
            simp only [decide_eq_true_eq] at hx
            simp only [keepB, decide_eq_true_eq]
            omega
          have hlenA : List.countP (keepB w c) A
              = (pruneHistory ⟨cap, w⟩ A c).length := by
            unfold pruneHistory
            exact List.countP_eq_length_filter _ _
          push_cast
          rw [Int.not_le] at hd
          have := hmono
          omega
        · have hzero : List.countP (fun u => decide (t' - w < u ∧ u ≤ t')) [c] = 0 := by
            simp [hin]
          rw [hzero]
          have := hcnt t'
          unfold countInWindow at this
          push_cast
          omega
      have hgoal := ih hrest_sorted (A ++ [c]) c
        (by
          intro a ha
          rcases List.mem_append.mp ha with ha1 | ha1
          · exact le_trans (hAm a ha1) hmlec
          · rw [List.mem_singleton] at ha1
            rw [ha1])
        hc_le_rest hcnt' t
      rw [List.append_assoc, List.singleton_append] at hgoal
      exact hgoal

lemma runSystem_nil (cfg : RateLimitConfig) (σ : Nat → List Int) :
    runSystem cfg σ [] = (σ, []) := rfl

lemma runSystem_cons (cfg : RateLimitConfig) (σ : Nat → List Int)
    (uid : Nat) (now : Int) (rest : List (Nat × Int)) :
    runSystem cfg σ ((uid, now) :: rest)
      = ((runSystem cfg (wrapperStep cfg σ uid now).1 rest).1,
          (if (wrapperStep cfg σ uid now).2.callbackInvoked
            then [(uid, now)] else [])
            ++ (runSystem cfg (wrapperStep cfg σ uid now).1 rest).2) := rfl

/-- Calls of a system-level trace addressed to identity i, in order. -/
def callsFor (i : Nat) (calls : List (Nat × Int)) : List Int :=
  (calls.filter (fun e => decide (e.1 = i))).map (fun e => e.2)

/-- A system-level run projects, for each identity i, onto the single-user
run over exactly the calls addressed to i: the final map entry at i and the
admitted timestamps for i coincide with those of the projected trace. -/
lemma runSystem_proj (cfg : RateLimitConfig) :
    ∀ (calls : List (Nat × Int)) (σ : Nat → List Int) (i : Nat),
      (runSystem cfg σ calls).1 i = (runTrace cfg (σ i) (callsFor i calls)).1 ∧
      ((runSystem cfg σ calls).2.filter (fun e => decide (e.1 = i))).map
          (fun e => e.2)
        = (runTrace cfg (σ i) (callsFor i calls)).2 := by
  intro calls
  induction calls with
  | nil =>
    intro σ i
    exact ⟨rfl, rfl⟩
  | cons hd rest ih =>
    obtain ⟨uid, now⟩ := hd
    intro σ i
    by_cases hi : uid = i
    · subst hi
      have hcf : callsFor uid ((uid, now) :: rest) = now :: callsFor uid rest := by
        unfold callsFor
        simp
      rw [runSystem_cons, hcf, runTrace_cons, wrapperStep_snd]
      have hσ : (wrapperStep cfg σ uid now).1 uid
          = (wrapperCall cfg (σ uid) now).newHistory :=
        wrapperStep_fst_self cfg σ uid now
      obtain ⟨ih1, ih2⟩ := ih (wrapperStep cfg σ uid now).1 uid
      rw [hσ] at ih1 ih2
      constructor
      · exact ih1
      · rw [List.filter_append, List.map_append, ih2]
        congr 1
        by_cases hinv : (wrapperCall cfg (σ uid) now).callbackInvoked = true
        · rw [hinv]
          simp
        · rw [Bool.not_eq_true] at hinv
          rw [hinv]
          simp
    · have hcf : callsFor i ((uid, now) :: rest) = callsFor i rest := by
        unfold callsFor
        simp [hi]
      rw [runSystem_cons, hcf]
      have hσ : (wrapperStep cfg σ uid now).1 i = σ i :=
        wrapperStep_fst_ne cfg σ uid i now (fun h => hi h.symm)
      obtain ⟨ih1, ih2⟩ := ih (wrapperStep cfg σ uid now).1 i
      rw [hσ] at ih1 ih2
      constructor
      · exact ih1
      · rw [List.filter_append, List.map_append, ih2]
        have hgone : ((if (wrapperStep cfg σ uid now).2.callbackInvoked
              then [(uid, now)] else []).filter
                (fun e => decide (e.1 = i))).map (fun e => e.2) = [] := by
          by_cases hinv : (wrapperStep cfg σ uid now).2.callbackInvoked = true
          · rw [hinv]
            simp [hi]
          · rw [Bool.not_eq_true] at hinv
            rw [hinv]
            simp
        rw [hgone, List.nil_append]

/-- C1: for every identity i and every time t, over any system-level
sequence of wrapper executions with non-decreasing call times starting from
the empty shared map, the number of admitted timestamps for i lying in the
trailing window (t - window_seconds, t] never exceeds messages_per_window
(for a configuration with non-negative capacity and window). -/
theorem wrapper_window_capacity_invariant (cap w : Int)
    (hcap : 0 ≤ cap) (hw : 0 ≤ w)
    (calls : List (Nat × Int))
    (hsorted : calls.Pairwise (fun a b => a.2 ≤ b.2))
    (i : Nat) (t : Int) :
    ((countInWindow w t
      (((runSystem ⟨cap, w⟩ (fun _ => []) calls).2.filter
        (fun e => decide (e.1 = i))).map (fun e => e.2))) : Int) ≤ cap := by
  obtain ⟨-, hproj⟩ := runSystem_proj ⟨cap, w⟩ calls (fun _ => []) i
  rw [hproj]
  have hsorted' : (callsFor i calls).Pairwise (· ≤ ·) := by
    unfold callsFor
    rw [List.pairwise_map]
    exact hsorted.filter _
  rcases hcf : callsFor i calls with _ | ⟨c0, cs⟩
  · rw [runTrace_nil]
    simpa [countInWindow] using hcap
  · rw [hcf] at hsorted'
    have hc0 : ∀ c ∈ c0 :: cs, c0 ≤ c := by
      intro c hc
      rcases List.mem_cons.mp hc with hc1 | hc1
      · rw [hc1]
      · exact (List.pairwise_cons.mp hsorted').1 c hc1
    have hbound := runTrace_window_bound cap w hw (c0 :: cs) hsorted'
      [] c0 (by simp) hc0
      (by
        intro t'
        simpa [countInWindow] using hcap)
      t
    simpa [pruneHistory] using hbound

theorem wrapper_window_capacity_invariant_witness :
    ((0 : Int) ≤ 3 ∧ (0 : Int) ≤ 60 ∧
      ([((1 : Nat), (0 : Int)), (1, 1), (1, 2), (1, 3), (2, 3)]).Pairwise
        (fun a b => a.2 ≤ b.2)) ∧
    ((countInWindow 60 3
      (((runSystem ⟨3, 60⟩ (fun _ => [])
          [((1 : Nat), (0 : Int)), (1, 1), (1, 2), (1, 3), (2, 3)]).2.filter
        (fun e => decide (e.1 = 1))).map (fun e => e.2))) : Int) ≤ 3 :=
  ⟨⟨by decide, by decide, by decide⟩,
    wrapper_window_capacity_invariant 3 60 (by decide) (by decide)
      [((1 : Nat), (0 : Int)), (1, 1), (1, 2), (1, 3), (2, 3)]
      (by decide) 1 3⟩

/-! The lru_cache memoization layer around the wrapper (C9). -/

/-- Telegram Update argument as the wrapper sees it: the body reads only
update.effective_user.id (flattened here to one field); the payload field
keeps distinct updates distinguishable for the cache-key equality. -/
structure Update where
  effective_user_id : Nat
  payload : Nat
deriving DecidableEq

/-- CallbackContext argument: opaque to the wrapper body, but part of the
memoization key. -/
structure CallbackContext where
  context_id : Nat
deriving DecidableEq

/-- State seen by one decorated function: the shared message_history map
together with the wrapper's lru_cache table, most recently used first;
each entry pairs an (update, context) key with the stored return value. -/
structure CacheState where
  message_history : Nat → List Int
  cache : List ((Update × CallbackContext) × Option Bool)

/-- maxsize of the functools.lru_cache applied to the wrapper. -/
def lru_maxsize : Nat := 1024

/-- The wrapper as actually decorated with lru_cache(maxsize=1024), keyed on
the (update, context) argument pair. On a cache hit the stored value is
returned immediately: the body — prune, capacity check, timestamp append,
callback invocation — does not run, and the entry moves to the front of the
recency order. On a miss the body runs as wrapperStep, and the key with the
computed return value (always None) is inserted in front, entries beyond
maxsize falling off the least recently used end. -/
def cachedWrapper (cfg : RateLimitConfig) (s : CacheState) (update : Update)
    (context : CallbackContext) (current_time : Int) :
    CacheState × WrapperResult :=
  match s.cache.find? (fun e => decide (e.1 = (update, context))) with
  | some e =>
      (⟨s.message_history,
        e :: List.eraseP (fun e2 => decide (e2.1 = (update, context))) s.cache⟩,
        ⟨s.message_history update.effective_user_id, false, e.2⟩)
  | none =>
      (⟨(wrapperStep cfg s.message_history update.effective_user_id current_time).1,
        (((update, context),
          (wrapperCall cfg (s.message_history update.effective_user_id)
            current_time).returnValue) :: s.cache).take lru_maxsize⟩,
        wrapperCall cfg (s.message_history update.effective_user_id) current_time)

/-- C9: the wrapper is memoized on the (update, context) pair: calling it
again with a pair equal to the one of an earlier (now cached) call returns
the cached result, leaves the whole message_history map untouched (no prune,
no recorded timestamp) and never invokes the wrapped callback — regardless
of how much time has passed between the two calls. -/
theorem lru_cache_hit_bypasses_limiter (cfg : RateLimitConfig)
    (s : CacheState) (update : Update) (context : CallbackContext)
    (t1 t2 : Int) :
    (cachedWrapper cfg (cachedWrapper cfg s update context t1).1
        update context t2).1.message_history
      = (cachedWrapper cfg s update context t1).1.message_history ∧
    (cachedWrapper cfg (cachedWrapper cfg s update context t1).1
        update context t2).2.callbackInvoked = false ∧
    (cachedWrapper cfg (cachedWrapper cfg s update context t1).1
        update context t2).2.returnValue
      = (cachedWrapper cfg s update context t1).2.returnValue := by
  have hkey : ∃ e, ((cachedWrapper cfg s update context t1).1.cache).find?
        (fun e2 => decide (e2.1 = (update, context))) = some e
      ∧ e.2 = (cachedWrapper cfg s update context t1).2.returnValue := by
    cases hfind : s.cache.find? (fun e2 => decide (e2.1 = (update, context))) with
    | some e =>
      refine ⟨e, ?_, ?_⟩
      · simp only [cachedWrapper, hfind]
        have hpe := List.find?_some hfind
        exact List.find?_cons_of_pos _ hpe
      · simp only [cachedWrapper, hfind]
    | none =>
      refine ⟨((update, context),
        (wrapperCall cfg (s.message_history update.effective_user_id)
          t1).returnValue), ?_, ?_⟩
      · simp only [cachedWrapper, hfind]
        have h1024 : lru_maxsize = 1023 + 1 := rfl
        rw [h1024, List.take_succ_cons]
        refine List.find?_cons_of_pos _ ?_
        simp
      · simp only [cachedWrapper, hfind]
  obtain ⟨e, hfind2, he⟩ := hkey
  set s1 := (cachedWrapper cfg s update context t1).1 with hs1
  refine ⟨?_, ?_, ?_⟩
  · simp only [cachedWrapper, hfind2]
  · simp only [cachedWrapper, hfind2]
  · simp only [cachedWrapper, hfind2]
    exact he

end Decorators
